import Mathlib

/-!
Verification of the seating-arrangement optimizer (src/main.py).

The development shallowly embeds the algorithmic core of the program:

* `get_total_familiarity` (source lines 57-69): the circular-adjacency
  objective over an arrangement, using `guests.indexOf` to index a score
  matrix `fam : ℕ → ℕ → ℚ` (numeric scores are modelled as rationals).
* `simulated_annealing` (source lines 72-120): the Metropolis loop.  The
  floating-point exponential `math.exp` is modelled as an abstract oracle
  `expOpt : ℚ → Option ℚ`; a `none` result stands for the `OverflowError`
  caught at source lines 112-115.  The random source of one iteration
  (`random.sample(range(n), 2)` and `random.random()`) is a `Choice`
  record, and a whole run consumes a stream `rng : ℕ → Choice`.  The
  `while T > T_min` loop is embedded fuel-indexed (`saLoop`); termination
  of the source loop is the statement that the fuel-indexed iteration
  stabilizes once the cooling schedule drops below `T_min`.
* the multi-run driver (source lines 159-171): `multiRun` folds the
  best-of-K update over K independent trials from the same start.
* a store-passing model (`heapStep`, `heapLoop`, `heapTrials`) of the same
  loop that makes Python object identity explicit: a store of list cells,
  `copy.deepcopy` allocating a fresh cell, the tuple swap mutating only
  that fresh cell, and acceptance rebinding the current-cell index.  This
  model settles the frame claim that the caller's arrangement object is
  never mutated.
-/

namespace SeatingNightmare

variable {G : Type} [DecidableEq G] [Inhabited G]

/-- Score of one ordered pair of guests: the matrix entry at their indices
in the guest list, `familiarity[guests.index(x), guests.index(y)]`. -/
def pairScore (fam : ℕ → ℕ → ℚ) (guests : List G) (x y : G) : ℚ :=
  fam (guests.indexOf x) (guests.indexOf y)

/-- Embedding of `get_total_familiarity` (source lines 57-69): the sum over
all positions `i` of the score between the guest at `i` and the guest at
`(i + 1) % len(arrangement)`. -/
def get_total_familiarity (fam : ℕ → ℕ → ℚ) (guests arrangement : List G) : ℚ :=
  ∑ i ∈ Finset.range arrangement.length,
    pairScore fam guests (arrangement.getD i default)
      (arrangement.getD ((i + 1) % arrangement.length) default)

/-- Embedding of the tuple swap at source line 106:
`new[i], new[j] = new[j], new[i]`, with the right-hand side read out
before either cell is written. -/
def swapPositions (l : List G) (i j : ℕ) : List G :=
  (l.set i (l.getD j default)).set j (l.getD i default)

/-- Random data consumed by one loop iteration: the two positions drawn by
`random.sample(range(n), 2)` and the uniform draw of `random.random()`. -/
structure Choice where
  i : ℕ
  j : ℕ
  u : ℚ

/-- Guarantees the Python random source provides for a run over
arrangements of length `n`: both sampled positions are in range and
distinct, and each uniform draw lies in `[0, 1)`. -/
def ValidChoices (n : ℕ) (rng : ℕ → Choice) : Prop :=
  ∀ t, (rng t).i < n ∧ (rng t).j < n ∧ (rng t).i ≠ (rng t).j ∧
    0 ≤ (rng t).u ∧ (rng t).u < 1

/-- Acceptance probability of source lines 112-115: `math.exp(-delta / T)`
with an `OverflowError` (here: `none` from the exponential oracle) caught
and replaced by probability `0`. -/
def acceptProbability (expOpt : ℚ → Option ℚ) (delta T : ℚ) : ℚ :=
  (expOpt (-delta / T)).getD 0

/-- Score change of the candidate produced by the swap of one iteration
(source lines 108-111). -/
def saDelta (fam : ℕ → ℕ → ℚ) (guests arrangement : List G) (c : Choice) : ℚ :=
  get_total_familiarity fam guests (swapPositions arrangement c.i c.j) -
    get_total_familiarity fam guests arrangement

/-- The unconditional-acceptance condition of source line 117:
`(delta < 0 and optimize == 'min') or (delta > 0 and optimize == 'max')`. -/
def Improving (delta : ℚ) (optimize : String) : Prop :=
  (delta < 0 ∧ optimize = "min") ∨ (delta > 0 ∧ optimize = "max")

instance (delta : ℚ) (optimize : String) : Decidable (Improving delta optimize) := by
  unfold Improving
  infer_instance

/-- Body of one iteration of the annealing loop (source lines 104-118):
build the candidate by copying and swapping, compute the score delta and
the clamped acceptance probability, and keep the candidate exactly when
the disjunction at source line 117 holds. -/
def saStep (fam : ℕ → ℕ → ℚ) (guests : List G) (expOpt : ℚ → Option ℚ)
    (optimize : String) (T : ℚ) (arrangement : List G) (c : Choice) : List G :=
  let new_arrangement := swapPositions arrangement c.i c.j
  let delta := get_total_familiarity fam guests new_arrangement -
    get_total_familiarity fam guests arrangement
  let accept_probability := acceptProbability expOpt delta T
  if (delta < 0 ∧ optimize = "min") ∨ (delta > 0 ∧ optimize = "max") ∨
      c.u < accept_probability
  then new_arrangement
  else arrangement

/-- Fuel-indexed embedding of the `while T > T_min` loop (source lines
103-119).  Each pass through the loop performs `saStep` on the choices of
iteration `t` and then cools `T` by the factor `alpha`; the loop exits,
returning the current arrangement, as soon as `T ≤ T_min`.  The fuel
bounds how many iterations are unfolded; the termination theorem shows
the result is independent of the fuel once the cooling schedule has
crossed `T_min`. -/
def saLoop (fam : ℕ → ℕ → ℚ) (guests : List G) (expOpt : ℚ → Option ℚ)
    (optimize : String) (T_min alpha : ℚ) :
    ℕ → (ℕ → Choice) → ℕ → ℚ → List G → List G
  | 0, _, _, _, arrangement => arrangement
  | fuel + 1, rng, t, T, arrangement =>
    if T > T_min then
      saLoop fam guests expOpt optimize T_min alpha fuel rng (t + 1) (T * alpha)
        (saStep fam guests expOpt optimize T arrangement (rng t))
    else arrangement

/-- Embedding of `simulated_annealing` (source lines 72-120), with the
parameter order of the source signature and the fuel and random stream
appended. -/
def simulated_annealing (fam : ℕ → ℕ → ℚ) (guests : List G)
    (expOpt : ℚ → Option ℚ) (arrangement : List G) (optimize : String)
    (T T_min alpha : ℚ) (fuel : ℕ) (rng : ℕ → Choice) : List G :=
  saLoop fam guests expOpt optimize T_min alpha fuel rng 0 T arrangement

/-- Temperature of the cooling schedule after `k` iterations:
`T, T * alpha, T * alpha ^ 2, ...`. -/
def tempAt (T alpha : ℚ) (k : ℕ) : ℚ :=
  T * alpha ^ k

/-- Best-of update of one trial of the multi-run driver (source lines
165-168): run the annealer from the original starting arrangement with
trial `k`'s randomness, and replace the tracked best exactly when the new
score is strictly better in the chosen direction. -/
def multiStep (fam : ℕ → ℕ → ℚ) (guests : List G) (expOpt : ℚ → Option ℚ)
    (optimize : String) (T T_min alpha : ℚ) (fuel : ℕ)
    (rngs : ℕ → ℕ → Choice) (initial_arrangement : List G)
    (best : List G × ℚ) (k : ℕ) : List G × ℚ :=
  let optimal_arrangement := simulated_annealing fam guests expOpt
    initial_arrangement optimize T T_min alpha fuel (rngs k)
  if (optimize = "min" ∧
        get_total_familiarity fam guests optimal_arrangement < best.2) ∨
      (optimize = "max" ∧
        get_total_familiarity fam guests optimal_arrangement > best.2)
  then (optimal_arrangement, get_total_familiarity fam guests optimal_arrangement)
  else best

/-- Embedding of the multi-run driver (source lines 162-168): the best
arrangement and score start at the unmodified initial arrangement and its
score, and `K` independent trials fold the best-of update over it. -/
def multiRun (fam : ℕ → ℕ → ℚ) (guests : List G) (expOpt : ℚ → Option ℚ)
    (optimize : String) (T T_min alpha : ℚ) (fuel : ℕ)
    (rngs : ℕ → ℕ → Choice) (initial_arrangement : List G) (K : ℕ) :
    List G × ℚ :=
  (List.range K).foldl
    (multiStep fam guests expOpt optimize T T_min alpha fuel rngs
      initial_arrangement)
    (initial_arrangement, get_total_familiarity fam guests initial_arrangement)

/-- Store-passing model of one loop iteration (source lines 104-118),
making Python object identity explicit.  The store is a list of list
cells, addressed by index; `cur` is the address the local variable
`arrangement` is bound to.  The iteration reads the current cell,
allocates a fresh cell holding a deep copy (`copy.deepcopy` at line 104),
performs the tuple swap in place on that fresh cell only (line 106), and
on acceptance rebinds `cur` to the fresh cell; no pre-existing cell is
ever written. -/
def heapStep (fam : ℕ → ℕ → ℚ) (guests : List G) (expOpt : ℚ → Option ℚ)
    (optimize : String) (T : ℚ) (s : List (List G) × ℕ) (c : Choice) :
    List (List G) × ℕ :=
  let store := s.1
  let cur := s.2
  let arrangement := store.getD cur []
  let newAddr := store.length
  let store1 := store ++ [arrangement]
  let store2 := store1.set newAddr (swapPositions (store1.getD newAddr []) c.i c.j)
  let new_arrangement := store2.getD newAddr []
  let delta := get_total_familiarity fam guests new_arrangement -
    get_total_familiarity fam guests arrangement
  let accept_probability := acceptProbability expOpt delta T
  if (delta < 0 ∧ optimize = "min") ∨ (delta > 0 ∧ optimize = "max") ∨
      c.u < accept_probability
  then (store2, newAddr)
  else (store2, cur)

/-- Store-passing form of the annealing loop (source lines 103-119): the
same control flow as `saLoop`, threading the store of list cells. -/
def heapLoop (fam : ℕ → ℕ → ℚ) (guests : List G) (expOpt : ℚ → Option ℚ)
    (optimize : String) (T_min alpha : ℚ) :
    ℕ → (ℕ → Choice) → ℕ → ℚ → List (List G) × ℕ → List (List G) × ℕ
  | 0, _, _, _, s => s
  | fuel + 1, rng, t, T, s =>
    if T > T_min then
      heapLoop fam guests expOpt optimize T_min alpha fuel rng (t + 1) (T * alpha)
        (heapStep fam guests expOpt optimize T s (rng t))
    else s

/-- Store-passing form of the multi-run driver (source lines 164-165):
each trial calls the annealer on the same address `initAddr`, the address
of the caller's `initial_arrangement` object, and the store produced by
one trial is threaded into the next. -/
def heapTrials (fam : ℕ → ℕ → ℚ) (guests : List G) (expOpt : ℚ → Option ℚ)
    (optimize : String) (T T_min alpha : ℚ) (fuel : ℕ)
    (rngs : ℕ → ℕ → Choice) (initAddr : ℕ) :
    ℕ → List (List G) → List (List G)
  | 0, store => store
  | K + 1, store =>
    (heapLoop fam guests expOpt optimize T_min alpha fuel (rngs K) 0 T
      (heapTrials fam guests expOpt optimize T T_min alpha fuel rngs initAddr K
        store, initAddr)).1

/-! ## Theorems -/

/-- C1: for every arrangement that is a permutation of the full guest set
and has positive length N, `get_total_familiarity` is the sum of the
scores of the N circular-adjacent position pairs: the N - 1 consecutive
pairs plus exactly one wrap-around term joining the last and first
elements. -/
theorem get_total_familiarity_circular_decomp (fam : ℕ → ℕ → ℚ)
    (guests arrangement : List G) (hperm : arrangement.Perm guests)
    (hpos : 0 < arrangement.length) :
    get_total_familiarity fam guests arrangement =
      (∑ i ∈ Finset.range (arrangement.length - 1),
        pairScore fam guests (arrangement.getD i default)
          (arrangement.getD (i + 1) default)) +
      pairScore fam guests (arrangement.getD (arrangement.length - 1) default)
        (arrangement.getD 0 default) := by
  rcases h : arrangement.length with _ | m
  · omega
  · unfold get_total_familiarity
    rw [h, Finset.sum_range_succ, Nat.mod_self, Nat.add_sub_cancel]
    congr 1
    refine Finset.sum_congr rfl fun i hi => ?_
    rw [Nat.mod_eq_of_lt (by have := Finset.mem_range.mp hi; omega)]

/-- Witness for C1 at a concrete arrangement of length 3. -/
theorem get_total_familiarity_circular_decomp_witness :
    get_total_familiarity (fun i j => (2 * i + j : ℚ)) [0, 1, 2] [1, 2, 0] =
      (∑ i ∈ Finset.range 2,
        pairScore (fun i j => (2 * i + j : ℚ)) [0, 1, 2]
          (([1, 2, 0] : List ℕ).getD i default)
          (([1, 2, 0] : List ℕ).getD (i + 1) default)) +
      pairScore (fun i j => (2 * i + j : ℚ)) [0, 1, 2]
        (([1, 2, 0] : List ℕ).getD 2 default)
        (([1, 2, 0] : List ℕ).getD 0 default) :=
  get_total_familiarity_circular_decomp _ _ _ (by decide) (by decide)

/-- Reindexing a sum over `range n` along the cyclic successor
`i ↦ (i + 1) % n`. -/
theorem sum_range_cyclic_shift (g : ℕ → ℚ) (n : ℕ) :
    ∑ i ∈ Finset.range n, g ((i + 1) % n) = ∑ i ∈ Finset.range n, g i := by
  cases n with
  | zero => simp
  | succ m =>
    rw [Finset.sum_range_succ, Nat.mod_self, Finset.sum_range_succ']
    congr 1
    refine Finset.sum_congr rfl fun i hi => ?_
    rw [Nat.mod_eq_of_lt (by have := Finset.mem_range.mp hi; omega)]

/-- Entry of a rotated list, in `getD` form. -/
theorem getD_rotate (l : List G) (k i : ℕ) (hi : i < l.length) :
    (l.rotate k).getD i default = l.getD ((i + k) % l.length) default := by
  rw [List.getD_eq_getElem?_getD, List.getD_eq_getElem?_getD,
    List.getElem?_rotate hi]


/-- Taking a cyclic successor commutes with an outer reduction mod `n`. -/
theorem add_one_mod_mod (a n : ℕ) : (a % n + 1) % n = (a + 1) % n := by
  rw [Nat.add_mod (a % n) 1 n, Nat.add_mod a 1 n, Nat.mod_mod_of_dvd a dvd_rfl]

/-- Matrix symmetry lifted to `pairScore`. -/
theorem pairScore_symm (fam : ℕ → ℕ → ℚ) (guests : List G)
    (hsymm : ∀ i j, fam i j = fam j i) (x y : G) :
    pairScore fam guests x y = pairScore fam guests y x :=
  hsymm _ _

/-- Rotating an arrangement one seat leaves the circular objective
unchanged. -/
theorem get_total_familiarity_rotate_one (fam : ℕ → ℕ → ℚ)
    (guests l : List G) :
    get_total_familiarity fam guests (l.rotate 1) =
      get_total_familiarity fam guests l := by
  unfold get_total_familiarity
  rw [List.length_rotate]
  rcases hn : l.length with _ | m
  · simp
  · trans ∑ i ∈ Finset.range (m + 1),
      pairScore fam guests (l.getD ((i + 1) % (m + 1) % (m + 1)) default)
        (l.getD (((i + 1) % (m + 1) + 1) % (m + 1)) default)
    · refine Finset.sum_congr rfl fun i hi => ?_
      have him : i < m + 1 := Finset.mem_range.mp hi
      have hi1 : i < l.length := by omega
      have hi2 : (i + 1) % (m + 1) < l.length := by
        rw [hn]; exact Nat.mod_lt _ (Nat.succ_pos m)
      rw [getD_rotate l 1 i hi1, getD_rotate l 1 _ hi2, hn,
        Nat.mod_mod_of_dvd (i + 1) dvd_rfl, add_one_mod_mod]
    · trans ∑ i ∈ Finset.range (m + 1),
        pairScore fam guests (l.getD (i % (m + 1)) default)
          (l.getD ((i + 1) % (m + 1)) default)
      · exact sum_range_cyclic_shift
          (fun j => pairScore fam guests (l.getD (j % (m + 1)) default)
            (l.getD ((j + 1) % (m + 1)) default)) (m + 1)
      · refine Finset.sum_congr rfl fun i hi => ?_
        rw [Nat.mod_eq_of_lt (Finset.mem_range.mp hi)]

/-- Rotating an arrangement any number of seats leaves the circular
objective unchanged. -/
theorem get_total_familiarity_rotate (fam : ℕ → ℕ → ℚ) (guests l : List G)
    (k : ℕ) :
    get_total_familiarity fam guests (l.rotate k) =
      get_total_familiarity fam guests l := by
  induction k with
  | zero => rw [List.rotate_zero]
  | succ k ih =>
    rw [← List.rotate_rotate, get_total_familiarity_rotate_one, ih]

/-- Entry of a reversed list, in `getD` form. -/
theorem getD_reverse (l : List G) (i : ℕ) (hi : i < l.length) :
    l.reverse.getD i default = l.getD (l.length - 1 - i) default := by
  have h1 : i < l.reverse.length := by rw [List.length_reverse]; exact hi
  have h2 : l.length - 1 - i < l.length := by omega
  rw [List.getD_eq_getElem?_getD, List.getD_eq_getElem?_getD,
    List.getElem?_eq_getElem h1, List.getElem?_eq_getElem h2,
    List.getElem_reverse]

/-- Reversing an arrangement leaves the circular objective unchanged when
the familiarity matrix is symmetric. -/
theorem get_total_familiarity_reverse (fam : ℕ → ℕ → ℚ) (guests l : List G)
    (hsymm : ∀ i j, fam i j = fam j i) :
    get_total_familiarity fam guests l.reverse =
      get_total_familiarity fam guests l := by
  unfold get_total_familiarity
  rw [List.length_reverse]
  rcases hn : l.length with _ | m
  · simp
  · rw [Finset.sum_range_succ, Finset.sum_range_succ, Nat.mod_self]
    congr 1
    · trans ∑ i ∈ Finset.range m,
        pairScore fam guests (l.getD (m - 1 - i) default)
          (l.getD (m - 1 - i + 1) default)
      · refine Finset.sum_congr rfl fun i hi => ?_
        have him : i < m := Finset.mem_range.mp hi
        have h1 : i < l.length := by omega
        have h3 : i + 1 < l.length := by omega
        rw [Nat.mod_eq_of_lt (by omega : i + 1 < m + 1),
          getD_reverse l i h1, getD_reverse l (i + 1) h3, hn,
          (by omega : m + 1 - 1 - i = m - 1 - i + 1),
          (by omega : m + 1 - 1 - (i + 1) = m - 1 - i)]
        exact pairScore_symm fam guests hsymm _ _
      · trans ∑ j ∈ Finset.range m,
          pairScore fam guests (l.getD j default) (l.getD (j + 1) default)
        · exact Finset.sum_range_reflect
            (fun j => pairScore fam guests (l.getD j default)
              (l.getD (j + 1) default)) m
        · refine Finset.sum_congr rfl fun i hi => ?_
          rw [Nat.mod_eq_of_lt (by have := Finset.mem_range.mp hi; omega)]
    · have h1 : m < l.length := by omega
      have h0 : (0 : ℕ) < l.length := by omega
      rw [getD_reverse l m h1, getD_reverse l 0 h0, hn,
        (by omega : m + 1 - 1 - m = 0), (by omega : m + 1 - 1 - 0 = m)]
      exact pairScore_symm fam guests hsymm _ _

/-- C8: for every arrangement that is a permutation of the full guest set
and every symmetric familiarity matrix, the objective
`get_total_familiarity` is invariant under cyclic rotation of the
arrangement and under reversal of the arrangement. -/
theorem objective_rotation_reversal_invariant (fam : ℕ → ℕ → ℚ)
    (guests arrangement : List G) (hperm : arrangement.Perm guests)
    (hsymm : ∀ i j, fam i j = fam j i) :
    (∀ k, get_total_familiarity fam guests (arrangement.rotate k) =
      get_total_familiarity fam guests arrangement) ∧
    get_total_familiarity fam guests arrangement.reverse =
      get_total_familiarity fam guests arrangement :=
  ⟨fun k => get_total_familiarity_rotate fam guests arrangement k,
   get_total_familiarity_reverse fam guests arrangement hsymm⟩

/-- Witness for C8 on a concrete symmetric matrix and arrangement. -/
theorem objective_rotation_reversal_invariant_witness :
    get_total_familiarity (fun i j => (i + j : ℚ)) [0, 1, 2]
        (([2, 0, 1] : List ℕ).rotate 1) =
      get_total_familiarity (fun i j => (i + j : ℚ)) [0, 1, 2] [2, 0, 1] ∧
    get_total_familiarity (fun i j => (i + j : ℚ)) [0, 1, 2]
        (([2, 0, 1] : List ℕ).reverse) =
      get_total_familiarity (fun i j => (i + j : ℚ)) [0, 1, 2] [2, 0, 1] :=
  ⟨(objective_rotation_reversal_invariant _ _ _ (by decide)
      (fun i j => add_comm (i : ℚ) (j : ℚ))).1 1,
   (objective_rotation_reversal_invariant _ _ _ (by decide)
      (fun i j => add_comm (i : ℚ) (j : ℚ))).2⟩

/-- Replacing the entry at a valid position and re-consing the removed
entry is a permutation of consing the new entry. -/
theorem getD_cons_set_perm (a : G) : ∀ (l : List G) (j : ℕ), j < l.length →
    List.Perm (l.getD j default :: l.set j a) (a :: l)
  | [], _, hj => absurd hj (by simp)
  | b :: m, 0, _ => by simpa using List.Perm.swap a b m
  | b :: m, j + 1, hj => by
    simp only [List.getD_cons_succ, List.set_cons_succ]
    exact ((List.Perm.swap b (m.getD j default) (m.set j a)).trans
      (List.Perm.cons b (getD_cons_set_perm a m j (by simp at hj; omega)))).trans
      (List.Perm.swap a b m)

/-- Swapping two valid positions yields a permutation of the list. -/
theorem swapPositions_perm : ∀ (l : List G) (i j : ℕ),
    i < l.length → j < l.length → List.Perm (swapPositions l i j) l
  | [], _, _, hi, _ => absurd hi (by simp)
  | a :: m, 0, 0, _, _ => by simp [swapPositions]
  | a :: m, 0, j + 1, _, hj => by
    simp only [swapPositions, List.getD_cons_succ, List.getD_cons_zero,
      List.set_cons_zero, List.set_cons_succ]
    exact getD_cons_set_perm a m j (by simp at hj; omega)
  | a :: m, i + 1, 0, hi, _ => by
    simp only [swapPositions, List.getD_cons_succ, List.getD_cons_zero,
      List.set_cons_zero, List.set_cons_succ]
    exact getD_cons_set_perm a m i (by simp at hi; omega)
  | a :: m, i + 1, j + 1, hi, hj => by
    simp only [swapPositions, List.getD_cons_succ, List.set_cons_succ]
    exact List.Perm.cons a
      (swapPositions_perm m i j (by simp at hi; omega) (by simp at hj; omega))

/-- One annealing iteration returns either the swapped candidate or the
unchanged arrangement, hence always a permutation of its input when the
swap positions are in range. -/
theorem saStep_perm (fam : ℕ → ℕ → ℚ) (guests : List G)
    (expOpt : ℚ → Option ℚ) (optimize : String) (T : ℚ)
    (arrangement : List G) (c : Choice) (hi : c.i < arrangement.length)
    (hj : c.j < arrangement.length) :
    List.Perm (saStep fam guests expOpt optimize T arrangement c)
      arrangement := by
  simp only [saStep]
  split
  · exact swapPositions_perm arrangement c.i c.j hi hj
  · exact List.Perm.refl _

/-- The annealing loop preserves the multiset of guests across any number
of iterations. -/
theorem saLoop_perm (fam : ℕ → ℕ → ℚ) (guests : List G)
    (expOpt : ℚ → Option ℚ) (optimize : String) (T_min alpha : ℚ) :
    ∀ (fuel : ℕ) (rng : ℕ → Choice) (t : ℕ) (T : ℚ)
      (arrangement : List G) (n : ℕ), arrangement.length = n →
      ValidChoices n rng →
      List.Perm
        (saLoop fam guests expOpt optimize T_min alpha fuel rng t T arrangement)
        arrangement
  | 0, _, _, _, _, _, _, _ => List.Perm.refl _
  | fuel + 1, rng, t, T, arrangement, n, hlen, hv => by
    rw [saLoop]
    split
    · have hstep : List.Perm
          (saStep fam guests expOpt optimize T arrangement (rng t))
          arrangement :=
        saStep_perm fam guests expOpt optimize T arrangement (rng t)
          (by rw [hlen]; exact (hv t).1) (by rw [hlen]; exact (hv t).2.1)
      exact (saLoop_perm fam guests expOpt optimize T_min alpha fuel rng
        (t + 1) (T * alpha) _ n (hstep.length_eq.trans hlen) hv).trans hstep
    · exact List.Perm.refl _

/-- C5: for every input arrangement and every sequence of random choices
the Python random source can produce (in-range, distinct positions and
uniform draws in `[0, 1)`), the arrangement returned by
`simulated_annealing` is a permutation of exactly the entities of the
input arrangement: none lost, duplicated, or introduced. -/
theorem simulated_annealing_perm (fam : ℕ → ℕ → ℚ) (guests : List G)
    (expOpt : ℚ → Option ℚ) (arrangement : List G) (optimize : String)
    (T T_min alpha : ℚ) (fuel : ℕ) (rng : ℕ → Choice)
    (hrng : ValidChoices arrangement.length rng) :
    List.Perm
      (simulated_annealing fam guests expOpt arrangement optimize T T_min
        alpha fuel rng)
      arrangement :=
  saLoop_perm fam guests expOpt optimize T_min alpha fuel rng 0 T
    arrangement arrangement.length rfl hrng

/-- Witness for C5: a concrete three-guest run of two iterations. -/
theorem simulated_annealing_perm_witness :
    List.Perm
      (simulated_annealing (fun i j => (i + j : ℚ)) [0, 1, 2]
        (fun _ => some 1) [0, 1, 2] "max" 10 1 (1 / 2) 2
        (fun _ => Choice.mk 0 1 (1 / 2)))
      [0, 1, 2] :=
  simulated_annealing_perm (fun i j => (i + j : ℚ)) [0, 1, 2]
    (fun _ => some 1) [0, 1, 2] "max" 10 1 (1 / 2) 2
    (fun _ => Choice.mk 0 1 (1 / 2))
    (fun _ => by refine ⟨?_, ?_, ?_, ?_, ?_⟩ <;> norm_num)

/-- C2: in every iteration of the annealing loop, the candidate obtained
by swapping the two positions drawn for that iteration is accepted
unconditionally when the score delta is improving in the chosen
direction (negative for `min`, positive for `max`); otherwise it is
accepted exactly when the iteration's uniform draw is below the computed
value of `exp(-delta / T)`, and a rejected candidate leaves the current
arrangement unchanged. -/
theorem metropolis_acceptance (fam : ℕ → ℕ → ℚ) (guests : List G)
    (expOpt : ℚ → Option ℚ) (optimize : String) (T T_min alpha : ℚ)
    (arrangement : List G) (rng : ℕ → Choice) (t fuel : ℕ) (p : ℚ)
    (hexp : expOpt (-(saDelta fam guests arrangement (rng t)) / T) = some p) :
    (T > T_min →
      saLoop fam guests expOpt optimize T_min alpha (fuel + 1) rng t T
          arrangement =
        saLoop fam guests expOpt optimize T_min alpha fuel rng (t + 1)
          (T * alpha)
          (saStep fam guests expOpt optimize T arrangement (rng t))) ∧
    (Improving (saDelta fam guests arrangement (rng t)) optimize →
      saStep fam guests expOpt optimize T arrangement (rng t) =
        swapPositions arrangement (rng t).i (rng t).j) ∧
    (¬ Improving (saDelta fam guests arrangement (rng t)) optimize →
      (rng t).u < p →
      saStep fam guests expOpt optimize T arrangement (rng t) =
        swapPositions arrangement (rng t).i (rng t).j) ∧
    (¬ Improving (saDelta fam guests arrangement (rng t)) optimize →
      ¬ (rng t).u < p →
      saStep fam guests expOpt optimize T arrangement (rng t) =
        arrangement) := by
  have hexp' := hexp
  simp only [saDelta] at hexp'
  have hap : acceptProbability expOpt
      (get_total_familiarity fam guests
          (swapPositions arrangement (rng t).i (rng t).j) -
        get_total_familiarity fam guests arrangement) T = p := by
    rw [acceptProbability, hexp']
    rfl
  refine ⟨fun hT => ?_, fun himp => ?_, fun hni hu => ?_, fun hni hnu => ?_⟩
  · rw [saLoop, if_pos hT]
  · simp only [Improving, saDelta] at himp
    simp only [saStep]
    split
    · rfl
    · next h =>
      exact absurd (himp.elim Or.inl fun hb => Or.inr (Or.inl hb)) h
  · simp only [saStep]
    split
    · rfl
    · next h =>
      refine absurd (Or.inr (Or.inr ?_)) h
      rw [hap]
      exact hu
  · simp only [Improving, saDelta] at hni
    simp only [saStep]
    split
    · next h =>
      exfalso
      rcases h with h | h | h
      · exact hni (Or.inl h)
      · exact hni (Or.inr h)
      · rw [hap] at h
        exact hnu h
    · rfl

/-- Witness for C2: one improving move accepted unconditionally and one
worsening move rejected because the uniform draw is not below the
exponential value. -/
theorem metropolis_acceptance_witness :
    (saStep (fun i j => (i * j : ℚ)) [0, 1, 2, 3] (fun _ => some (1 / 2))
        "max" 5 [0, 1, 2, 3] (Choice.mk 0 1 (1 / 2)) =
      swapPositions [0, 1, 2, 3] 0 1) ∧
    (saStep (fun i j => (i * j : ℚ)) [0, 1, 2, 3] (fun _ => some (1 / 4))
        "max" 5 [1, 0, 2, 3] (Choice.mk 0 1 (1 / 2)) =
      [1, 0, 2, 3]) :=
  ⟨(metropolis_acceptance (fun i j => (i * j : ℚ)) [0, 1, 2, 3]
      (fun _ => some (1 / 2)) "max" 5 0 1 [0, 1, 2, 3]
      (fun _ => Choice.mk 0 1 (1 / 2)) 0 0 (1 / 2) rfl).2.1
    (by simp [Improving, saDelta, swapPositions, get_total_familiarity, pairScore, Finset.sum_range_succ, List.indexOf, List.findIdx, List.findIdx.go]; norm_num),
   (metropolis_acceptance (fun i j => (i * j : ℚ)) [0, 1, 2, 3]
      (fun _ => some (1 / 4)) "max" 5 0 1 [1, 0, 2, 3]
      (fun _ => Choice.mk 0 1 (1 / 2)) 0 0 (1 / 4) rfl).2.2.2
    (by simp [Improving, saDelta, swapPositions, get_total_familiarity, pairScore, Finset.sum_range_succ, List.indexOf, List.findIdx, List.findIdx.go]; norm_num) (by norm_num)⟩

/-- C7: when the exponential oracle signals overflow (the caught
`OverflowError` of source lines 112-115), the acceptance probability is
clamped to `0`, so the move is rejected unless it is improving; the step
still returns an arrangement, never an error. -/
theorem overflow_clamps_probability (fam : ℕ → ℕ → ℚ) (guests : List G)
    (expOpt : ℚ → Option ℚ) (optimize : String) (T : ℚ)
    (arrangement : List G) (rng : ℕ → Choice) (t : ℕ)
    (hexp : expOpt (-(saDelta fam guests arrangement (rng t)) / T) = none)
    (hu : 0 ≤ (rng t).u) :
    acceptProbability expOpt (saDelta fam guests arrangement (rng t)) T = 0 ∧
    (Improving (saDelta fam guests arrangement (rng t)) optimize →
      saStep fam guests expOpt optimize T arrangement (rng t) =
        swapPositions arrangement (rng t).i (rng t).j) ∧
    (¬ Improving (saDelta fam guests arrangement (rng t)) optimize →
      saStep fam guests expOpt optimize T arrangement (rng t) =
        arrangement) := by
  have hexp' := hexp
  simp only [saDelta] at hexp'
  have hap : acceptProbability expOpt
      (get_total_familiarity fam guests
          (swapPositions arrangement (rng t).i (rng t).j) -
        get_total_familiarity fam guests arrangement) T = 0 := by
    rw [acceptProbability, hexp']
    rfl
  refine ⟨by rw [acceptProbability, hexp]; rfl, fun himp => ?_, fun hni => ?_⟩
  · simp only [Improving, saDelta] at himp
    simp only [saStep]
    split
    · rfl
    · next h =>
      exact absurd (himp.elim Or.inl fun hb => Or.inr (Or.inl hb)) h
  · simp only [Improving, saDelta] at hni
    simp only [saStep]
    split
    · next h =>
      exfalso
      rcases h with h | h | h
      · exact hni (Or.inl h)
      · exact hni (Or.inr h)
      · rw [hap] at h
        exact absurd h (not_lt.mpr hu)
    · rfl

/-- Witness for C7: an overflowing exponential yields probability `0` and
the worsening move is rejected. -/
theorem overflow_clamps_probability_witness :
    acceptProbability (fun _ => none)
        (saDelta (fun i j => (i * j : ℚ)) [0, 1, 2, 3] [1, 0, 2, 3]
          (Choice.mk 0 1 (1 / 2))) 5 = 0 ∧
    saStep (fun i j => (i * j : ℚ)) [0, 1, 2, 3] (fun _ => none) "max" 5
        [1, 0, 2, 3] (Choice.mk 0 1 (1 / 2)) =
      [1, 0, 2, 3] :=
  ⟨(overflow_clamps_probability (fun i j => (i * j : ℚ)) [0, 1, 2, 3]
      (fun _ => none) "max" 5 [1, 0, 2, 3]
      (fun _ => Choice.mk 0 1 (1 / 2)) 0 rfl (by norm_num)).1,
   (overflow_clamps_probability (fun i j => (i * j : ℚ)) [0, 1, 2, 3]
      (fun _ => none) "max" 5 [1, 0, 2, 3]
      (fun _ => Choice.mk 0 1 (1 / 2)) 0 rfl (by norm_num)).2.2
    (by simp [Improving, saDelta, swapPositions, get_total_familiarity, pairScore, Finset.sum_range_succ, List.indexOf, List.findIdx, List.findIdx.go]; norm_num)⟩

/-- The loop body is never entered once the temperature is at or below
`T_min`: the current arrangement is returned unchanged. -/
theorem saLoop_exit (fam : ℕ → ℕ → ℚ) (guests : List G)
    (expOpt : ℚ → Option ℚ) (optimize : String) (T_min alpha : ℚ)
    (fuel : ℕ) (rng : ℕ → Choice) (t : ℕ) (T : ℚ) (arrangement : List G)
    (h : T ≤ T_min) :
    saLoop fam guests expOpt optimize T_min alpha fuel rng t T arrangement =
      arrangement := by
  cases fuel with
  | zero => rfl
  | succ fuel => rw [saLoop, if_neg (not_lt.mpr h)]

/-- Once enough fuel is supplied for the cooling schedule to cross
`T_min`, additional fuel does not change the result: the while loop has
genuinely exited. -/
theorem saLoop_stable (fam : ℕ → ℕ → ℚ) (guests : List G)
    (expOpt : ℚ → Option ℚ) (optimize : String) (T_min alpha : ℚ) :
    ∀ (k m : ℕ) (rng : ℕ → Choice) (t : ℕ) (T : ℚ) (arrangement : List G),
      T * alpha ^ k ≤ T_min →
      saLoop fam guests expOpt optimize T_min alpha (k + m) rng t T
          arrangement =
        saLoop fam guests expOpt optimize T_min alpha k rng t T arrangement
  | 0, m, rng, t, T, arrangement, h => by
    rw [pow_zero, mul_one] at h
    rw [Nat.zero_add,
      saLoop_exit fam guests expOpt optimize T_min alpha m rng t T
        arrangement h]
    rfl
  | k + 1, m, rng, t, T, arrangement, h => by
    by_cases hT : T > T_min
    · have hrec : T * alpha * alpha ^ k ≤ T_min := by
        rw [mul_assoc, ← pow_succ']
        exact h
      have e : k + 1 + m = k + m + 1 := by omega
      rw [e, saLoop, if_pos hT, saLoop, if_pos hT]
      exact saLoop_stable fam guests expOpt optimize T_min alpha k m rng
        (t + 1) (T * alpha) _ hrec
    · rw [saLoop_exit fam guests expOpt optimize T_min alpha _ rng t T
        arrangement (not_lt.mp hT),
        saLoop_exit fam guests expOpt optimize T_min alpha _ rng t T
        arrangement (not_lt.mp hT)]

/-- With a positive minimum temperature and a cooling factor strictly
between 0 and 1, the cooling schedule eventually drops to `T_min`. -/
theorem cooling_reaches_Tmin (T T_min alpha : ℚ) (hTmin : 0 < T_min)
    (hlt : T_min < T) (ha1 : alpha < 1) :
    ∃ k, tempAt T alpha k ≤ T_min := by
  have hT0 : 0 < T := hTmin.trans hlt
  obtain ⟨k, hk⟩ := exists_pow_lt_of_lt_one (div_pos hTmin hT0) ha1
  refine ⟨k, le_of_lt ?_⟩
  rw [tempAt]
  calc T * alpha ^ k < T * (T_min / T) := (mul_lt_mul_left hT0).mpr hk
    _ = T_min := by field_simp

/-- C6: under the precondition `0 < T`, `0 < T_min`, `T_min < T` and
`0 < alpha < 1`, the annealing loop terminates: it returns the current
arrangement as soon as the temperature is at or below `T_min`, the
cooling schedule multiplies the temperature by `alpha` each iteration and
eventually crosses `T_min`, and from any fuel at least that large the
run's result is the fixed result of the finished loop. -/
theorem annealing_terminates (fam : ℕ → ℕ → ℚ) (guests : List G)
    (expOpt : ℚ → Option ℚ) (arrangement : List G) (optimize : String)
    (T T_min alpha : ℚ) (rng : ℕ → Choice) (hT0 : 0 < T)
    (hTmin : 0 < T_min) (hlt : T_min < T) (ha0 : 0 < alpha)
    (ha1 : alpha < 1) :
    (∀ (fuel t : ℕ) (T' : ℚ) (arr : List G), T' ≤ T_min →
      saLoop fam guests expOpt optimize T_min alpha fuel rng t T' arr =
        arr) ∧
    (∀ k, tempAt T alpha k ≤ T_min → ∀ fuel, k ≤ fuel →
      simulated_annealing fam guests expOpt arrangement optimize T T_min
          alpha fuel rng =
        simulated_annealing fam guests expOpt arrangement optimize T T_min
          alpha k rng) ∧
    (∃ k, tempAt T alpha k ≤ T_min) := by
  refine ⟨fun fuel t T' arr h =>
    saLoop_exit fam guests expOpt optimize T_min alpha fuel rng t T' arr h,
    fun k hk fuel hfuel => ?_,
    cooling_reaches_Tmin T T_min alpha hTmin hlt ha1⟩
  obtain ⟨m, rfl⟩ := Nat.exists_eq_add_of_le hfuel
  simp only [simulated_annealing]
  exact saLoop_stable fam guests expOpt optimize T_min alpha k m rng 0 T
    arrangement (by rw [tempAt] at hk; exact hk)

/-- Witness for C6: with `T = 4`, `T_min = 1`, `alpha = 1/2` the loop is
done after 2 iterations, and a loop started at or below `T_min` returns
its input at once. -/
theorem annealing_terminates_witness :
    saLoop (fun i j => (i + j : ℚ)) [0, 1] (fun _ => some 1) "min" 1
        (1 / 2) 3 (fun _ => Choice.mk 0 1 0) 0 1 [0, 1] = [0, 1] ∧
    simulated_annealing (fun i j => (i + j : ℚ)) [0, 1] (fun _ => some 1)
        [0, 1] "min" 4 1 (1 / 2) 5 (fun _ => Choice.mk 0 1 0) =
      simulated_annealing (fun i j => (i + j : ℚ)) [0, 1] (fun _ => some 1)
        [0, 1] "min" 4 1 (1 / 2) 2 (fun _ => Choice.mk 0 1 0) :=
  ⟨(annealing_terminates (fun i j => (i + j : ℚ)) [0, 1] (fun _ => some 1)
      [0, 1] "min" 4 1 (1 / 2) (fun _ => Choice.mk 0 1 0) (by norm_num)
      (by norm_num) (by norm_num) (by norm_num) (by norm_num)).1 3 0 1
    [0, 1] (by norm_num),
   ((annealing_terminates (fun i j => (i + j : ℚ)) [0, 1] (fun _ => some 1)
      [0, 1] "min" 4 1 (1 / 2) (fun _ => Choice.mk 0 1 0) (by norm_num)
      (by norm_num) (by norm_num) (by norm_num) (by norm_num)).2.1 2
    (by norm_num [tempAt]) 5 (by norm_num))⟩

/-- C3: the multi-run driver running K + 1 trials is the driver running K
trials followed by one more annealing trial that starts from the original
`initial_arrangement` (never from a previous trial's result); the tracked
best is replaced exactly when the new trial's score is strictly better in
the chosen direction, so on a tie the existing best is kept. -/
theorem multiRun_best_of_succ (fam : ℕ → ℕ → ℚ) (guests : List G)
    (expOpt : ℚ → Option ℚ) (optimize : String) (T T_min alpha : ℚ)
    (fuel : ℕ) (rngs : ℕ → ℕ → Choice) (initial_arrangement : List G)
    (K : ℕ) :
    multiRun fam guests expOpt optimize T T_min alpha fuel rngs
        initial_arrangement (K + 1) =
      if (optimize = "min" ∧
            get_total_familiarity fam guests
                (simulated_annealing fam guests expOpt initial_arrangement
                  optimize T T_min alpha fuel (rngs K)) <
              (multiRun fam guests expOpt optimize T T_min alpha fuel rngs
                initial_arrangement K).2) ∨
          (optimize = "max" ∧
            get_total_familiarity fam guests
                (simulated_annealing fam guests expOpt initial_arrangement
                  optimize T T_min alpha fuel (rngs K)) >
              (multiRun fam guests expOpt optimize T T_min alpha fuel rngs
                initial_arrangement K).2)
      then
        (simulated_annealing fam guests expOpt initial_arrangement optimize
            T T_min alpha fuel (rngs K),
          get_total_familiarity fam guests
            (simulated_annealing fam guests expOpt initial_arrangement
              optimize T T_min alpha fuel (rngs K)))
      else
        multiRun fam guests expOpt optimize T T_min alpha fuel rngs
          initial_arrangement K := by
  conv_lhs => rw [multiRun, List.range_succ]
  rw [List.foldl_append, List.foldl_cons, List.foldl_nil]
  rfl

/-- One best-of update cannot increase the tracked score under `min`. -/
theorem multiStep_min_le (fam : ℕ → ℕ → ℚ) (guests : List G)
    (expOpt : ℚ → Option ℚ) (optimize : String) (T T_min alpha : ℚ)
    (fuel : ℕ) (rngs : ℕ → ℕ → Choice) (initial_arrangement : List G)
    (best : List G × ℚ) (k : ℕ) (h : optimize = "min") :
    (multiStep fam guests expOpt optimize T T_min alpha fuel rngs
        initial_arrangement best k).2 ≤ best.2 := by
  simp only [multiStep]
  split
  · next hcond =>
    rcases hcond with ⟨_, hlt⟩ | ⟨hmax, _⟩
    · exact le_of_lt hlt
    · exact absurd (h.symm.trans hmax) (by decide)
  · exact le_refl best.2

/-- One best-of update cannot decrease the tracked score under `max`. -/
theorem multiStep_max_ge (fam : ℕ → ℕ → ℚ) (guests : List G)
    (expOpt : ℚ → Option ℚ) (optimize : String) (T T_min alpha : ℚ)
    (fuel : ℕ) (rngs : ℕ → ℕ → Choice) (initial_arrangement : List G)
    (best : List G × ℚ) (k : ℕ) (h : optimize = "max") :
    best.2 ≤ (multiStep fam guests expOpt optimize T T_min alpha fuel rngs
      initial_arrangement best k).2 := by
  simp only [multiStep]
  split
  · next hcond =>
    rcases hcond with ⟨hmin, _⟩ | ⟨_, hgt⟩
    · exact absurd (h.symm.trans hmin) (by decide)
    · exact le_of_lt hgt
  · exact le_refl best.2

/-- Folding best-of updates never worsens the tracked score under `min`. -/
theorem multiRun_foldl_min (fam : ℕ → ℕ → ℚ) (guests : List G)
    (expOpt : ℚ → Option ℚ) (optimize : String) (T T_min alpha : ℚ)
    (fuel : ℕ) (rngs : ℕ → ℕ → Choice) (initial_arrangement : List G)
    (h : optimize = "min") :
    ∀ (l : List ℕ) (s : List G × ℚ),
      (List.foldl
        (multiStep fam guests expOpt optimize T T_min alpha fuel rngs
          initial_arrangement) s l).2 ≤ s.2
  | [], _ => le_refl _
  | k :: l, s =>
    le_trans
      (multiRun_foldl_min fam guests expOpt optimize T T_min alpha fuel
        rngs initial_arrangement h l _)
      (multiStep_min_le fam guests expOpt optimize T T_min alpha fuel rngs
        initial_arrangement s k h)

/-- Folding best-of updates never worsens the tracked score under `max`. -/
theorem multiRun_foldl_max (fam : ℕ → ℕ → ℚ) (guests : List G)
    (expOpt : ℚ → Option ℚ) (optimize : String) (T T_min alpha : ℚ)
    (fuel : ℕ) (rngs : ℕ → ℕ → Choice) (initial_arrangement : List G)
    (h : optimize = "max") :
    ∀ (l : List ℕ) (s : List G × ℚ),
      s.2 ≤ (List.foldl
        (multiStep fam guests expOpt optimize T T_min alpha fuel rngs
          initial_arrangement) s l).2
  | [], _ => le_refl _
  | k :: l, s =>
    le_trans
      (multiStep_max_ge fam guests expOpt optimize T T_min alpha fuel rngs
        initial_arrangement s k h)
      (multiRun_foldl_max fam guests expOpt optimize T T_min alpha fuel
        rngs initial_arrangement h l _)

/-- C4: for every starting arrangement and every trial count K ≥ 1, the
score returned by the multi-run driver is never worse, under the chosen
direction's comparison, than the objective value of the unmodified
starting arrangement. -/
theorem multiRun_no_worse_than_start (fam : ℕ → ℕ → ℚ) (guests : List G)
    (expOpt : ℚ → Option ℚ) (optimize : String) (T T_min alpha : ℚ)
    (fuel : ℕ) (rngs : ℕ → ℕ → Choice) (initial_arrangement : List G)
    (K : ℕ) (hK : 1 ≤ K) :
    (optimize = "min" →
      (multiRun fam guests expOpt optimize T T_min alpha fuel rngs
          initial_arrangement K).2 ≤
        get_total_familiarity fam guests initial_arrangement) ∧
    (optimize = "max" →
      get_total_familiarity fam guests initial_arrangement ≤
        (multiRun fam guests expOpt optimize T T_min alpha fuel rngs
          initial_arrangement K).2) := by
  constructor
  · intro h
    rw [multiRun]
    exact multiRun_foldl_min fam guests expOpt optimize T T_min alpha fuel
      rngs initial_arrangement h (List.range K) _
  · intro h
    rw [multiRun]
    exact multiRun_foldl_max fam guests expOpt optimize T T_min alpha fuel
      rngs initial_arrangement h (List.range K) _

/-- Witness for C4: a concrete one-trial minimizing run scores no higher
than its start. -/
theorem multiRun_no_worse_than_start_witness :
    (multiRun (fun i j => (i * j : ℚ)) [0, 1, 2, 3] (fun _ => some 1)
        "min" 10 1 (1 / 2) 4 (fun _ _ => Choice.mk 0 1 (1 / 2))
        [0, 1, 2, 3] 1).2 ≤
      get_total_familiarity (fun i j => (i * j : ℚ)) [0, 1, 2, 3]
        [0, 1, 2, 3] :=
  (multiRun_no_worse_than_start (fun i j => (i * j : ℚ)) [0, 1, 2, 3]
    (fun _ => some 1) "min" 10 1 (1 / 2) 4
    (fun _ _ => Choice.mk 0 1 (1 / 2)) [0, 1, 2, 3] 1 (by decide)).1 rfl

/-- C9 (divergence witness): `simulated_annealing` performs no validation
of its schedule parameters.  With `T ≤ T_min` (covering `T ≤ 0`,
`T_min ≥ T`) it silently returns the input arrangement, doing no
optimization work and raising no error; and with `alpha = 1` and
`T_min < T` the loop guard `T > T_min` holds at every step of the cooling
schedule, so the while loop never exits.  The spec instead requires such
configurations to be rejected with a descriptive error. -/
theorem no_schedule_validation :
    (∀ (fam : ℕ → ℕ → ℚ) (guests : List G) (expOpt : ℚ → Option ℚ)
      (arrangement : List G) (optimize : String) (T T_min alpha : ℚ)
      (fuel : ℕ) (rng : ℕ → Choice), T ≤ T_min →
      simulated_annealing fam guests expOpt arrangement optimize T T_min
        alpha fuel rng = arrangement) ∧
    (∀ T T_min : ℚ, T_min < T → ∀ k, T_min < tempAt T 1 k) := by
  constructor
  · intro fam guests expOpt arrangement optimize T T_min alpha fuel rng h
    simp only [simulated_annealing]
    exact saLoop_exit fam guests expOpt optimize T_min alpha fuel rng 0 T
      arrangement h
  · intro T T_min h k
    rw [tempAt, one_pow, mul_one]
    exact h

/-- Witness for C9: an inverted schedule (`T = 1 ≤ T_min = 2`) silently
returns the input, and with `alpha = 1` the guard still holds after 1000
iterations of the source's default schedule. -/
theorem no_schedule_validation_witness :
    simulated_annealing (fun i j => (i + j : ℚ)) [0, 1] (fun _ => some 1)
        [0, 1] "min" 1 2 (9 / 10) 5 (fun _ => Choice.mk 0 1 0) = [0, 1] ∧
    (1 / 100 : ℚ) < tempAt 5000 1 1000 :=
  ⟨(@no_schedule_validation ℕ _ _).1 (fun i j => (i + j : ℚ)) [0, 1]
    (fun _ => some 1) [0, 1] "min" 1 2 (9 / 10) 5
    (fun _ => Choice.mk 0 1 0) (by norm_num),
   (@no_schedule_validation ℕ _ _).2 5000 (1 / 100) (by norm_num) 1000⟩

/-- One store-passing iteration appends exactly one fresh cell and leaves
every pre-existing cell untouched. -/
theorem heapStep_frame (fam : ℕ → ℕ → ℚ) (guests : List G)
    (expOpt : ℚ → Option ℚ) (optimize : String) (T : ℚ)
    (s : List (List G) × ℕ) (c : Choice) :
    (heapStep fam guests expOpt optimize T s c).1.length =
      s.1.length + 1 ∧
    ∀ a, a < s.1.length →
      (heapStep fam guests expOpt optimize T s c).1.getD a [] =
        s.1.getD a [] := by
  simp only [heapStep]
  split
  all_goals
    refine ⟨by simp, fun a ha => ?_⟩
    rw [List.getD_eq_getElem?_getD,
      List.getElem?_set_ne (by omega : s.1.length ≠ a),
      List.getElem?_append_left ha, ← List.getD_eq_getElem?_getD]

/-- The store-passing annealing loop never changes a pre-existing cell,
and the store only grows. -/
theorem heapLoop_frame (fam : ℕ → ℕ → ℚ) (guests : List G)
    (expOpt : ℚ → Option ℚ) (optimize : String) (T_min alpha : ℚ) :
    ∀ (fuel : ℕ) (rng : ℕ → Choice) (t : ℕ) (T : ℚ)
      (s : List (List G) × ℕ) (a : ℕ), a < s.1.length →
      (heapLoop fam guests expOpt optimize T_min alpha fuel rng t T
          s).1.getD a [] = s.1.getD a [] ∧
      s.1.length ≤
        (heapLoop fam guests expOpt optimize T_min alpha fuel rng t T
          s).1.length
  | 0, _, _, _, _, _, _ => ⟨rfl, le_refl _⟩
  | fuel + 1, rng, t, T, s, a, ha => by
    rw [heapLoop]
    split
    · have hstep := heapStep_frame fam guests expOpt optimize T s (rng t)
      have ha2 : a <
          (heapStep fam guests expOpt optimize T s (rng t)).1.length := by
        rw [hstep.1]; omega
      have ih := heapLoop_frame fam guests expOpt optimize T_min alpha fuel
        rng (t + 1) (T * alpha)
        (heapStep fam guests expOpt optimize T s (rng t)) a ha2
      exact ⟨ih.1.trans (hstep.2 a ha),
        le_trans (by rw [hstep.1]; omega) ih.2⟩
    · exact ⟨rfl, le_refl _⟩

/-- Across any number of multi-run trials, each calling the annealer on
the same initial-arrangement address, no pre-existing cell changes. -/
theorem heapTrials_frame (fam : ℕ → ℕ → ℚ) (guests : List G)
    (expOpt : ℚ → Option ℚ) (optimize : String) (T T_min alpha : ℚ)
    (fuel : ℕ) (rngs : ℕ → ℕ → Choice) (initAddr : ℕ) :
    ∀ (K : ℕ) (store : List (List G)) (a : ℕ), a < store.length →
      (heapTrials fam guests expOpt optimize T T_min alpha fuel rngs
          initAddr K store).getD a [] = store.getD a [] ∧
      store.length ≤
        (heapTrials fam guests expOpt optimize T T_min alpha fuel rngs
          initAddr K store).length
  | 0, _, _, _ => ⟨rfl, le_refl _⟩
  | K + 1, store, a, ha => by
    rw [heapTrials]
    have ih := heapTrials_frame fam guests expOpt optimize T T_min alpha
      fuel rngs initAddr K store a ha
    have ha2 : a < (heapTrials fam guests expOpt optimize T T_min alpha
        fuel rngs initAddr K store).length := lt_of_lt_of_le ha ih.2
    have hl := heapLoop_frame fam guests expOpt optimize T_min alpha fuel
      (rngs K) 0 T
      (heapTrials fam guests expOpt optimize T T_min alpha fuel rngs
        initAddr K store, initAddr) a ha2
    exact ⟨hl.1.trans ih.1, le_trans ih.2 hl.2⟩

/-- C10: in the store-passing model of the source's object semantics,
`simulated_annealing` never mutates the list object passed to it: every
candidate is a fresh deep copy and acceptance only rebinds the local
variable, so after a call — and after every multi-run trial — every cell
that existed before the call, in particular the caller's starting
arrangement, still holds exactly its original sequence of entities. -/
theorem arrangement_object_not_mutated (fam : ℕ → ℕ → ℚ) (guests : List G)
    (expOpt : ℚ → Option ℚ) (optimize : String) (T T_min alpha : ℚ)
    (fuel : ℕ) (store : List (List G)) (a : ℕ) (ha : a < store.length) :
    (∀ (rng : ℕ → Choice) (t : ℕ) (T' : ℚ) (cur : ℕ),
      (heapLoop fam guests expOpt optimize T_min alpha fuel rng t T'
          (store, cur)).1.getD a [] = store.getD a []) ∧
    (∀ (rngs : ℕ → ℕ → Choice) (initAddr K : ℕ),
      (heapTrials fam guests expOpt optimize T T_min alpha fuel rngs
        initAddr K store).getD a [] = store.getD a []) :=
  ⟨fun rng t T' cur =>
    (heapLoop_frame fam guests expOpt optimize T_min alpha fuel rng t T'
      (store, cur) a ha).1,
   fun rngs initAddr K =>
    (heapTrials_frame fam guests expOpt optimize T T_min alpha fuel rngs
      initAddr K store a ha).1⟩

/-- Witness for C10: a concrete two-iteration run and a two-trial driver
leave the starting arrangement's cell equal to its original value. -/
theorem arrangement_object_not_mutated_witness :
    (heapLoop (fun i j => (i * j : ℚ)) [0, 1, 2, 3] (fun _ => some 1)
        "max" 1 (1 / 2) 2 (fun _ => Choice.mk 0 1 (1 / 2)) 0 10
        ([[0, 1, 2, 3]], 0)).1.getD 0 [] = [0, 1, 2, 3] ∧
    (heapTrials (fun i j => (i * j : ℚ)) [0, 1, 2, 3] (fun _ => some 1)
        "max" 10 1 (1 / 2) 2 (fun _ _ => Choice.mk 0 1 (1 / 2)) 0 2
        [[0, 1, 2, 3]]).getD 0 [] = [0, 1, 2, 3] :=
  ⟨(arrangement_object_not_mutated (fun i j => (i * j : ℚ)) [0, 1, 2, 3]
      (fun _ => some 1) "max" 10 1 (1 / 2) 2 [[0, 1, 2, 3]] 0
      (by decide)).1 (fun _ => Choice.mk 0 1 (1 / 2)) 0 10 0,
   (arrangement_object_not_mutated (fun i j => (i * j : ℚ)) [0, 1, 2, 3]
      (fun _ => some 1) "max" 10 1 (1 / 2) 2 [[0, 1, 2, 3]] 0
      (by decide)).2 (fun _ _ => Choice.mk 0 1 (1 / 2)) 0 2⟩

end SeatingNightmare
